import Mathlib

/-!
Verification of the speechful repository (src/main.c), a subtitle-driven
audio extraction and re-encoding pipeline built on FFmpeg.

The definitions below are a shallow embedding of the C source:

* struct range (main.c lines 21-24) becomes the structure MRange; since
  "end" is a Lean keyword, the field is called "stop".
* get_overlapped_region (main.c lines 96-106) is translated literally.
* read_packet (main.c lines 222-234) is translated with av_read_frame
  modelled as consuming a finite script of demuxer results.
* format_write_audio_data (main.c lines 140-220) is translated with the
  FFmpeg audio fifo modelled as a Lean list of samples and with the
  encoder/muxer collaborators (avcodec_send_frame, avcodec_receive_packet,
  av_write_frame, av_write_trailer) modelled as consuming finite scripts
  of return codes.  The unbounded for-loop of the C code is driven by a
  fuel parameter; fuel exhaustion (result none) models non-termination.
* The watermark logic of the driver loop in main (lines 558-569) is
  translated as cue_step, with av_rescale_q modelled from FFmpeg's
  documented AV_ROUND_NEAR_INF behaviour (round to nearest, ties away
  from zero, computed with C truncating division).
* The exit path of main (every error path jumps to the cleanup label
  and falls through to the single return statement) is translated as
  speechful_main over an environment of collaborator return codes.
-/

/-- AVERROR(EAGAIN) as produced on Linux (EAGAIN = 11). -/
def AVERROR_EAGAIN : Int := -11

/-- AVERROR_EOF, FFmpeg's end-of-stream error code (FFERRTAG of EOF). -/
def AVERROR_EOF : Int := -541478725

/-- Model of struct range (main.c lines 21-24): a half-open interval in
milliseconds.  The C field "end" is called "stop" here because "end" is a
Lean keyword.  The C struct itself carries no invariant. -/
structure MRange where
  start : Int
  stop : Int
deriving DecidableEq

/-- Translation of get_overlapped_region (main.c lines 96-106).  The C
function asserts that the two ranges overlap and then picks the larger
start and the smaller stop using explicit difference comparisons. -/
def get_overlapped_region (a b : MRange) : MRange :=
  { start := if a.start - b.start < 0 then b.start else a.start
  , stop := if a.stop - b.stop < 0 then a.stop else b.stop }

/-- Model of a demuxed packet as far as read_packet inspects it: only the
stream index matters (main.c line 228). -/
structure MPacket where
  stream_index : Int
deriving DecidableEq

/-- Translation of read_packet (main.c lines 222-234).  av_read_frame is
modelled as a finite script of results: Except.ok p delivers packet p,
Except.error e is a demuxer error/end-of-stream return code.  When the
script is exhausted the demuxer reports end of stream (AVERROR_EOF),
matching a finite input file.  The function returns the final value of
ret together with the packet left in pkt (none when the loop exited with
a nonzero ret, in which case av_read_frame delivered nothing). -/
def read_packet (stream_idx : Int) : List (Except Int MPacket) → Int × Option MPacket
  | [] => (AVERROR_EOF, none)
  | Except.error e :: _ => (e, none)
  | Except.ok p :: rest =>
    if p.stream_index = stream_idx then (0, some p) else read_packet stream_idx rest

/-- Model of av_rescale_rnd with AV_ROUND_NEAR_INF, the rounding mode used
by av_rescale_q: round a*b/c to the nearest integer, ties away from zero.
FFmpeg computes r = c/2 and returns (a*b + r)/c with C truncating
division, negating through for negative a.  Int.tdiv is C's truncating
division. -/
def av_rescale_rnd_near (a b c : Int) : Int :=
  if a < 0 then -Int.tdiv ((-a) * b + Int.tdiv c 2) c
  else Int.tdiv (a * b + Int.tdiv c 2) c

/-- Translation of tb2ms (main.c lines 84-88): av_rescale_q(n, {num,den},
{1,1000}) which is av_rescale_rnd(n, num*1000, den*1, AV_ROUND_NEAR_INF). -/
def tb2ms (num den n : Int) : Int :=
  av_rescale_rnd_near n (num * 1000) (den * 1)

/-- A subtitle cue as the driver loop reads it from a packet: a
presentation timestamp and a duration, both in the subtitle stream's
time base (main.c lines 561-562). -/
structure Cue where
  pts : Int
  duration : Int
deriving DecidableEq

/-- Guard-margin widening of a cue (main.c lines 561-562): convert the
cue's endpoints to milliseconds and widen by 1000 ms on each side. -/
def widen_cue (num den : Int) (c : Cue) : MRange :=
  ⟨tb2ms num den c.pts - 1000, tb2ms num den (c.pts + c.duration) + 1000⟩

/-- Watermark clipping (main.c lines 566-567): if the widened cue starts
before the watermark prev_sub_ended_at, move its start up to the
watermark.  The stop endpoint is left unchanged. -/
def clip_to_watermark (prev : Int) (r : MRange) : MRange :=
  ⟨if r.start < prev then prev else r.start, r.stop⟩

/-- One iteration of the driver's cue loop as far as the watermark is
concerned (main.c lines 559-569): widen the cue, clip its start to the
watermark, and set the watermark to the widened cue's end.  Returns the
interval the pipeline will process and the new watermark. -/
def cue_step (num den prev : Int) (c : Cue) : MRange × Int :=
  let r := clip_to_watermark prev (widen_cue num den c)
  (r, r.stop)

/-- Return codes of the fallible collaborator calls made by main
(main.c lines 401-750), in program order.  A negative value models the
corresponding call failing; alloc_queue_ok models the av_audio_fifo_alloc
result when the MP3 encoder demands fixed-size frames (fifo allocation is
needed), and pipeline folds together the cue loop, the decoder flush
and the final encoder flush (each of whose failures takes the same
error-print-then-goto-end path). -/
structure MainEnv where
  open_input : Int
  choose_audio_stream : Int
  open_subtitle : Int
  open_decoder : Int
  open_encoder : Int
  alloc_output : Int
  avio_open_ret : Int
  write_header : Int
  open_resampler : Int
  alloc_queue_ok : Bool
  pipeline : Int
deriving DecidableEq

/-- Translation of main's exit-status behaviour (main.c lines 401-750).
Every fatal error prints a diagnostic naming the failing stage and jumps
to the cleanup label end; the function then falls through to the single
statement return 0 (line 749), so the first component — the process exit
status — is 0 on every path.  The second component records the
diagnostics printed.  Note the decoder-open failure (lines 481-485)
prints its diagnostic but, faithfully to the source, does not jump to
end, so execution continues. -/
def speechful_main (env : MainEnv) : Int × List String :=
  if env.open_input < 0 then (0, ["open input"])
  else if env.choose_audio_stream < 0 then (0, ["choose audio stream"])
  else if env.open_subtitle < 0 then (0, ["open subtitle"])
  else
    let d := if env.open_decoder < 0 then ["open decoder"] else []
    if env.open_encoder < 0 then (0, d ++ ["open encoder"])
    else if env.alloc_output < 0 then (0, d ++ ["open output"])
    else if env.avio_open_ret < 0 then (0, d ++ ["open output file"])
    else if env.write_header < 0 then (0, d ++ ["write header"])
    else if env.open_resampler < 0 then (0, d ++ ["open resampler"])
    else if env.alloc_queue_ok = false then (0, d ++ ["alloc queue"])
    else if env.pipeline < 0 then (0, d ++ ["pipeline"])
    else (0, d)

/-- A data frame handed to avcodec_send_frame by format_write_audio_data:
its sample count (frame->nb_samples, main.c line 183 via dequeued) and
its presentation timestamp (frame->pts, line 187). -/
structure Chunk where
  samples : Nat
  pts : Int
deriving DecidableEq

/-- State threaded through the for loop of format_write_audio_data
(main.c lines 167-214).  q models the contents of the AVAudioFifo as a
list of samples; pts models *next_pts; sends, recvs and writes are the
pending scripted return codes of avcodec_send_frame,
avcodec_receive_packet and av_write_frame; ret is the C local ret;
chunks records every data frame passed to avcodec_send_frame, in order;
flushSent records whether avcodec_send_frame(enc, NULL) was called. -/
structure FAState where
  q : List Int
  pts : Int
  sends : List Int
  recvs : List Int
  writes : List Int
  chunks : List Chunk
  flushSent : Bool
  ret : Int
deriving DecidableEq

/-- Observable outcome of one call to format_write_audio_data: the
returned code, the final fifo contents, the final *next_pts, the data
frames sent to the encoder, whether the NULL flush frame was sent, and
whether av_write_trailer ran. -/
structure FAResult where
  ret : Int
  q : List Int
  pts : Int
  chunks : List Chunk
  flushSent : Bool
  wroteTrailer : Bool
deriving DecidableEq

/-- Package the current state into a result, as the code does when it
reaches the end label or the final return (main.c lines 216-219). -/
def mkRes (st : FAState) (ret : Int) (tr : Bool) : FAResult :=
  ⟨ret, st.q, st.pts, st.chunks, st.flushSent, tr⟩

/-- Outcome of the packet-drain while loop plus the classification that
follows it (main.c lines 200-213): a write failure jumps to end; an
AVERROR_EOF from the encoder writes the trailer and breaks; any other
non-EAGAIN code breaks with that code; AVERROR_EOF and write failures
aside, an AVERROR_EAGAIN falls through to the next for iteration. -/
inductive DrainOut
  | toEnd (ret : Int)
  | trailerBreak (ret : Int)
  | errBreak (ret : Int)
  | continueLoop
deriving DecidableEq

/-- The packet-drain while loop (main.c lines 200-205) together with the
classification on lines 207-213.  Each avcodec_receive_packet call
consumes the head of the recvs script (an exhausted script means the
encoder keeps answering AVERROR_EAGAIN); a 0 result delivers a packet,
which is written with the next code from the writes script (exhausted
means success).  Returns the outcome and the remaining scripts. -/
def drainPackets (trailer : Int) : List Int → List Int → DrainOut × List Int × List Int
  | [], ws => (DrainOut.continueLoop, [], ws)
  | r :: rs, ws =>
    if r = 0 then
      match ws with
      | [] => drainPackets trailer rs []
      | w :: ws' =>
        if w < 0 then (DrainOut.toEnd w, rs, ws') else drainPackets trailer rs ws'
    else if r = AVERROR_EOF then (DrainOut.trailerBreak trailer, rs, ws)
    else if r = AVERROR_EAGAIN then (DrainOut.continueLoop, rs, ws)
    else (DrainOut.errBreak r, rs, ws)

/-- Run the packet drain and dispatch on its outcome (main.c lines
200-213): jump to end, break out of the for loop (with or without the
trailer write), or continue with the next for iteration carrying
ret = AVERROR_EAGAIN. -/
def afterDrain (st : FAState) (trailer : Int) (recurse : FAState → Option FAResult) :
    Option FAResult :=
  match drainPackets trailer st.recvs st.writes with
  | (DrainOut.toEnd w, rs, ws) =>
    some (mkRes { st with recvs := rs, writes := ws } w false)
  | (DrainOut.trailerBreak t, rs, ws) =>
    some (mkRes { st with recvs := rs, writes := ws } t true)
  | (DrainOut.errBreak e, rs, ws) =>
    some (mkRes { st with recvs := rs, writes := ws } e false)
  | (DrainOut.continueLoop, rs, ws) =>
    recurse { st with recvs := rs, writes := ws, ret := AVERROR_EAGAIN }

/-- The for loop of format_write_audio_data (main.c lines 167-214),
driven by fuel; none models non-termination.  With a queue present the
loop dequeues min(fifo size, enc->frame_size) samples: zero dequeued
either returns AVERROR_EAGAIN (not yet end of stream) or sends the NULL
flush frame; a short chunk before end of stream breaks out with the
current ret; otherwise the chunk is stamped with *next_pts, the counter
advances by the chunk's sample count, the samples leave the fifo and the
frame goes to avcodec_send_frame.  Without a queue the loop body falls
straight through to the packet drain.  In-memory operations the source
checks only for allocation failure (av_packet_alloc, av_frame_alloc,
prepare_audio_frame_for_encoding, av_audio_fifo_read of an available
amount) are modelled as succeeding. -/
def faLoop (fs : Nat) (hasQueue eof : Bool) (trailer : Int) :
    Nat → FAState → Option FAResult
  | 0, _ => none
  | Nat.succ fuel, st =>
    if hasQueue then
      let dequeued := min st.q.length fs
      if dequeued = 0 then
        if eof = false then some (mkRes st AVERROR_EAGAIN false)
        else
          match st.sends with
          | s :: ss =>
            if s < 0 then
              some (mkRes { st with sends := ss, flushSent := true } s false)
            else
              afterDrain { st with sends := ss, flushSent := true } trailer
                (faLoop fs hasQueue eof trailer fuel)
          | [] =>
            afterDrain { st with flushSent := true } trailer
              (faLoop fs hasQueue eof trailer fuel)
      else
        if dequeued < fs ∧ eof = false then some (mkRes st st.ret false)
        else
          let st1 := { st with
            chunks := st.chunks ++ [⟨dequeued, st.pts⟩]
            pts := st.pts + (dequeued : Int)
            q := st.q.drop dequeued }
          match st.sends with
          | s :: ss =>
            if s < 0 then some (mkRes { st1 with sends := ss } s false)
            else afterDrain { st1 with sends := ss } trailer
              (faLoop fs hasQueue eof trailer fuel)
          | [] => afterDrain st1 trailer (faLoop fs hasQueue eof trailer fuel)
    else
      afterDrain st trailer (faLoop fs hasQueue eof trailer fuel)

/-- Translation of format_write_audio_data (main.c lines 140-220).
fs is enc->frame_size; queue is the AVAudioFifo contents (none when main
passed a NULL queue because the encoder accepts variable frame sizes);
buf is the pushed sample buffer (none for the final flush call);
next_pts is the pts counter.  eof_received := !buf || !samples
(line 148); a non-NULL buffer is appended to the fifo when a queue
exists (lines 159-164, av_audio_fifo_write returning the sample count);
then the for loop runs.  Packet and frame allocation (lines 151-157)
are modelled as succeeding. -/
def format_write_audio_data (fs : Nat) (queue : Option (List Int))
    (buf : Option (List Int)) (next_pts : Int)
    (sends recvs writes : List Int) (trailer : Int) (fuel : Nat) :
    Option FAResult :=
  let eof : Bool := buf.isNone || (buf.getD []).isEmpty
  let q1 : List Int :=
    match buf, queue with
    | some l, some q0 => q0 ++ l
    | _, some q0 => q0
    | _, none => []
  let ret0 : Int :=
    match buf, queue with
    | some l, some _ => (l.length : Int)
    | _, _ => 0
  faLoop fs queue.isSome eof trailer fuel
    ⟨q1, next_pts, sends, recvs, writes, [], false, ret0⟩

/-- Total sample count of a list of chunks, as an integer. -/
def chunkSum : List Chunk → Int
  | [] => 0
  | c :: cs => (c.samples : Int) + chunkSum cs

/-- Decidable statement that a chunk list carries consecutive
presentation timestamps starting at p: each chunk's pts is the running
counter and the counter advances by that chunk's sample count. -/
def consecutiveFrom : Int → List Chunk → Bool
  | _, [] => true
  | p, c :: cs => (c.pts == p) && consecutiveFrom (p + (c.samples : Int)) cs

/-- C2: get_overlapped_region of two overlapping intervals is exactly
the intersection, with the larger start and the smaller stop, and the
result is non-empty.  The hypotheses ha and hb are the data model's
Interval invariant (end > start, enforced at construction per the spec);
h1 and h2 are the overlap precondition asserted on main.c line 100. -/
theorem get_overlapped_region_is_intersection (a b : MRange)
    (ha : a.start < a.stop) (hb : b.start < b.stop)
    (h1 : b.start < a.stop) (h2 : a.start < b.stop) :
    get_overlapped_region a b = ⟨max a.start b.start, min a.stop b.stop⟩ ∧
      (get_overlapped_region a b).start < (get_overlapped_region a b).stop := by
  unfold get_overlapped_region
  refine ⟨?_, ?_⟩
  · simp only [MRange.mk.injEq, max_def, min_def]
    constructor <;> split <;> split <;> omega
  · simp only
    split <;> split <;> omega

/-- Witness for C2 at the concrete overlapping intervals [0,5) and [3,8):
the intersection is [3,5) and it is non-empty. -/
theorem get_overlapped_region_is_intersection_witness :
    get_overlapped_region ⟨0, 5⟩ ⟨3, 8⟩ = ⟨3, 5⟩ ∧
      (get_overlapped_region ⟨0, 5⟩ ⟨3, 8⟩).start <
        (get_overlapped_region ⟨0, 5⟩ ⟨3, 8⟩).stop := by
  have h := get_overlapped_region_is_intersection ⟨0, 5⟩ ⟨3, 8⟩
    (by decide) (by decide) (by decide) (by decide)
  exact ⟨h.1.trans (by decide), h.2⟩

/-- C10: read_packet either returns 0 with a packet belonging to the
requested stream (packets of other streams are discarded, never
delivered), or returns the demuxer's error/end-of-stream code with no
packet delivered.  The hypothesis herr is the av_read_frame contract:
a call that delivers no packet returns a nonzero (error or end-of-stream)
code, never 0. -/
theorem read_packet_stream_filter (stream_idx : Int)
    (script : List (Except Int MPacket)) (r : Int) (p : Option MPacket)
    (herr : ∀ c, Except.error c ∈ script → c ≠ 0)
    (h : read_packet stream_idx script = (r, p)) :
    (r = 0 → ∃ pk, p = some pk ∧ pk.stream_index = stream_idx) ∧
      (r ≠ 0 → p = none) := by
  induction script with
  | nil =>
    simp only [read_packet, Prod.mk.injEq] at h
    refine ⟨fun h0 => absurd (h.1 ▸ h0) (by decide), fun _ => h.2.symm⟩
  | cons x rest ih =>
    match x with
    | Except.error e =>
      simp only [read_packet, Prod.mk.injEq] at h
      have he : e ≠ 0 := herr e (List.mem_cons_self _ _)
      refine ⟨fun h0 => absurd (h.1 ▸ h0) he, fun _ => h.2.symm⟩
    | Except.ok pk =>
      by_cases hidx : pk.stream_index = stream_idx
      · rw [read_packet, if_pos hidx] at h
        rw [Prod.mk.injEq] at h
        refine ⟨fun _ => ⟨pk, h.2.symm, hidx⟩, fun hr => absurd h.1.symm hr⟩
      · rw [read_packet, if_neg hidx] at h
        exact ih (fun c hc => herr c (List.mem_cons_of_mem _ hc)) h

/-- Witness for C10: with stream index 1 and a script delivering a packet
of stream 2 followed by a packet of stream 1, read_packet returns 0 and
delivers the stream-1 packet (the stream-2 packet was discarded). -/
theorem read_packet_stream_filter_witness :
    ((0 : Int) = 0 →
      ∃ pk, (some (MPacket.mk 1) : Option MPacket) = some pk ∧ pk.stream_index = 1) ∧
      ((0 : Int) ≠ 0 → (some (MPacket.mk 1) : Option MPacket) = none) :=
  read_packet_stream_filter 1 [Except.ok ⟨2⟩, Except.ok ⟨1⟩] 0 (some ⟨1⟩)
    (by intro c hc; simp at hc) rfl

/-- Truncating division with non-negative numerators is monotone in the
numerator. -/
theorem tdiv_le_tdiv_of_le {x y c : Int} (hx : 0 ≤ x) (hxy : x ≤ y) (hc : 0 < c) :
    Int.tdiv x c ≤ Int.tdiv y c := by
  rw [Int.tdiv_eq_ediv hx hc.le, Int.tdiv_eq_ediv (hx.trans hxy) hc.le]
  exact Int.ediv_le_ediv hc hxy

/-- av_rescale_rnd with AV_ROUND_NEAR_INF is monotone in its first
argument when the scale factors are positive. -/
theorem av_rescale_rnd_near_mono (b c : Int) (hb : 0 ≤ b) (hc : 0 < c)
    {x y : Int} (h : x ≤ y) :
    av_rescale_rnd_near x b c ≤ av_rescale_rnd_near y b c := by
  have hr : 0 ≤ Int.tdiv c 2 := Int.tdiv_nonneg hc.le (by norm_num)
  unfold av_rescale_rnd_near
  split
  · split
    · have hnum : 0 ≤ (-y) * b + Int.tdiv c 2 := by
        have : 0 ≤ (-y) * b := mul_nonneg (by omega) hb
        omega
      have hle : (-y) * b + Int.tdiv c 2 ≤ (-x) * b + Int.tdiv c 2 := by
        have : (-y) * b ≤ (-x) * b := mul_le_mul_of_nonneg_right (by omega) hb
        omega
      have := tdiv_le_tdiv_of_le hnum hle hc
      omega
    · have h1 : 0 ≤ Int.tdiv ((-x) * b + Int.tdiv c 2) c :=
        Int.tdiv_nonneg (by have : 0 ≤ (-x) * b := mul_nonneg (by omega) hb; omega) hc.le
      have h2 : 0 ≤ Int.tdiv (y * b + Int.tdiv c 2) c :=
        Int.tdiv_nonneg (by have : 0 ≤ y * b := mul_nonneg (by omega) hb; omega) hc.le
      omega
  · split
    · omega
    · have hnum : 0 ≤ x * b + Int.tdiv c 2 := by
        have : 0 ≤ x * b := mul_nonneg (by omega) hb
        omega
      have hle : x * b + Int.tdiv c 2 ≤ y * b + Int.tdiv c 2 := by
        have : x * b ≤ y * b := mul_le_mul_of_nonneg_right h hb
        omega
      exact tdiv_le_tdiv_of_le hnum hle hc

/-- tb2ms is monotone for a valid (positive) time base. -/
theorem tb2ms_mono (num den : Int) (hn : 0 < num) (hd : 0 < den)
    {x y : Int} (h : x ≤ y) : tb2ms num den x ≤ tb2ms num den y :=
  av_rescale_rnd_near_mono (num * 1000) (den * 1)
    (by positivity) (by omega) h

/-- C9 counterexample: the claim that every interval the pipeline
constructs satisfies end > start is false.  With the subtitle time base
1/1000 and cues (pts 0, duration 10000) then (pts 500, duration 100) —
a cue sequence with non-decreasing start times — the second cue's span
after widening and watermark clipping is [11000, 1600), whose end is
below its start. -/
theorem clipped_cue_span_empty_cex :
    (0 : Int) ≤ 500 ∧
      (cue_step 1 1000 (cue_step 1 1000 0 ⟨0, 10000⟩).2 ⟨500, 100⟩).1.stop ≤
        (cue_step 1 1000 (cue_step 1 1000 0 ⟨0, 10000⟩).2 ⟨500, 100⟩).1.start := by
  decide

/-- C9 amended: guard-margin widening alone always yields a non-empty
interval (its length is the cue's non-negative duration in milliseconds
plus 2000 ms of guard margin); the code does not re-establish end > start
after watermark clipping. -/
theorem widened_cue_span_nonempty (num den : Int) (c : Cue)
    (hn : 0 < num) (hd : 0 < den) (hdur : 0 ≤ c.duration) :
    (widen_cue num den c).start < (widen_cue num den c).stop := by
  have hm : tb2ms num den c.pts ≤ tb2ms num den (c.pts + c.duration) :=
    tb2ms_mono num den hn hd (by omega)
  unfold widen_cue
  simp only
  omega

/-- Witness for the amended C9 at time base 1/1000 and the cue
(pts 0, duration 0): the widened span is [-1000, 1000), non-empty. -/
theorem widened_cue_span_nonempty_witness :
    (widen_cue 1 1000 ⟨0, 0⟩).start < (widen_cue 1 1000 ⟨0, 0⟩).stop :=
  widened_cue_span_nonempty 1 1000 ⟨0, 0⟩ (by decide) (by decide) (by decide)

/-- C7 counterexample: the watermark prev_sub_ended_at is not
monotonically non-decreasing across the cue loop.  With time base 1/1000
and the start-ordered cues (pts 0, duration 10000) then (pts 500,
duration 100), the watermark is 11000 after the first cue and drops to
1600 after the second, because the loop overwrites it with the current
cue's widened end unconditionally (main.c line 569). -/
theorem watermark_not_monotone_cex :
    (0 : Int) ≤ 500 ∧
      (cue_step 1 1000 (cue_step 1 1000 0 ⟨0, 10000⟩).2 ⟨500, 100⟩).2 <
        (cue_step 1 1000 0 ⟨0, 10000⟩).2 := by
  decide

/-- C7 amended: after processing a cue the watermark equals that cue's
widened end (tb2ms(pts + duration) + 1000), so it is non-decreasing
exactly when each cue's widened end is at least the current watermark —
for instance when cue end times are non-decreasing; ordering by start
time alone does not guarantee it. -/
theorem watermark_step_amended (num den prev : Int) (c : Cue)
    (h : prev ≤ tb2ms num den (c.pts + c.duration) + 1000) :
    prev ≤ (cue_step num den prev c).2 ∧
      (cue_step num den prev c).2 = tb2ms num den (c.pts + c.duration) + 1000 :=
  ⟨h, rfl⟩

/-- Witness for the amended C7 at time base 1/1000, watermark 0 and the
cue (pts 0, duration 0): the new watermark is 1000 ≥ 0. -/
theorem watermark_step_amended_witness :
    (0 : Int) ≤ (cue_step 1 1000 0 ⟨0, 0⟩).2 ∧
      (cue_step 1 1000 0 ⟨0, 0⟩).2 = tb2ms 1 1000 (0 + 0) + 1000 :=
  watermark_step_amended 1 1000 0 ⟨0, 0⟩ (by decide)

/-- C8 evidence: the program does not exit non-zero on fatal errors.
When opening the input file fails, main prints the open-input diagnostic
yet still exits with status 0, and the same happens on a pipeline
(decode/resample/encode/write) failure. -/
theorem exit_status_zero_on_fatal_error :
    speechful_main ⟨-1, 0, 0, 0, 0, 0, 0, 0, 0, true, 0⟩ = (0, ["open input"]) ∧
      speechful_main ⟨0, 0, 0, 0, 0, 0, 0, 0, 0, true, -1⟩ = (0, ["pipeline"]) :=
  ⟨rfl, rfl⟩

/-- The drain loop only ever drops script entries: the remaining recvs
and writes scripts are subsets of the input scripts. -/
theorem drainPackets_shrink (trailer : Int) :
    ∀ rs ws out rs' ws', drainPackets trailer rs ws = (out, rs', ws') →
      rs' ⊆ rs ∧ ws' ⊆ ws := by
  intro rs
  induction rs with
  | nil =>
    intro ws out rs' ws' h
    rw [drainPackets] at h
    simp only [Prod.mk.injEq] at h
    obtain ⟨-, rfl, rfl⟩ := h
    exact ⟨List.Subset.refl _, List.Subset.refl _⟩
  | cons r rs ih =>
    intro ws out rs' ws' h
    rw [drainPackets.eq_def] at h
    simp only at h
    by_cases hr : r = 0
    · rw [if_pos hr] at h
      cases ws with
      | nil =>
        have h2 := ih [] out rs' ws' h
        exact ⟨h2.1.trans (List.subset_cons_self _ _), h2.2⟩
      | cons w ws1 =>
        simp only at h
        by_cases hw : w < 0
        · rw [if_pos hw] at h
          simp only [Prod.mk.injEq] at h
          obtain ⟨-, rfl, rfl⟩ := h
          exact ⟨List.subset_cons_self _ _, List.subset_cons_self _ _⟩
        · rw [if_neg hw] at h
          have h2 := ih ws1 out rs' ws' h
          exact ⟨h2.1.trans (List.subset_cons_self _ _),
            h2.2.trans (List.subset_cons_self _ _)⟩
    · rw [if_neg hr] at h
      by_cases he : r = AVERROR_EOF
      · rw [if_pos he] at h
        simp only [Prod.mk.injEq] at h
        obtain ⟨-, rfl, rfl⟩ := h
        exact ⟨List.subset_cons_self _ _, List.Subset.refl _⟩
      · rw [if_neg he] at h
        by_cases ha : r = AVERROR_EAGAIN
        · rw [if_pos ha] at h
          simp only [Prod.mk.injEq] at h
          obtain ⟨-, rfl, rfl⟩ := h
          exact ⟨List.subset_cons_self _ _, List.Subset.refl _⟩
        · rw [if_neg ha] at h
          simp only [Prod.mk.injEq] at h
          obtain ⟨-, rfl, rfl⟩ := h
          exact ⟨List.subset_cons_self _ _, List.Subset.refl _⟩

/-- Classification of the drain loop's outcome under the FFmpeg
contracts that avcodec_receive_packet returns 0 or a negative code and
signals AVERROR_EOF only after a flush was requested, and that
av_write_frame does not return AVERROR_EAGAIN: the drain either jumps to
end on a genuinely negative non-EAGAIN write error, breaks on a
genuinely negative non-EAGAIN receive error, or falls through to the
next for iteration; it never writes the trailer. -/
theorem drainPackets_cases (trailer : Int) :
    ∀ rs ws, (∀ x ∈ rs, x ≤ 0 ∧ x ≠ AVERROR_EOF) →
      (∀ x ∈ ws, x ≠ AVERROR_EAGAIN) →
      (∃ w rs' ws', (w < 0 ∧ w ≠ AVERROR_EAGAIN) ∧
        drainPackets trailer rs ws = (DrainOut.toEnd w, rs', ws'))
      ∨ (∃ e rs' ws', (e < 0 ∧ e ≠ AVERROR_EAGAIN) ∧
        drainPackets trailer rs ws = (DrainOut.errBreak e, rs', ws'))
      ∨ (∃ rs' ws', drainPackets trailer rs ws = (DrainOut.continueLoop, rs', ws')) := by
  intro rs
  induction rs with
  | nil =>
    intro ws _ _
    exact Or.inr (Or.inr ⟨[], ws, by rw [drainPackets]⟩)
  | cons r rs ih =>
    intro ws hrs hws
    have hrs' : ∀ x ∈ rs, x ≤ 0 ∧ x ≠ AVERROR_EOF :=
      fun x hx => hrs x (List.mem_cons_of_mem _ hx)
    by_cases hr : r = 0
    · cases ws with
      | nil =>
        have hstep : drainPackets trailer (r :: rs) [] = drainPackets trailer rs [] := by
          rw [drainPackets.eq_def]
          simp [hr]
        rcases ih [] hrs' (by intro x hx; cases hx) with
          ⟨w, rs', ws', hw, heq⟩ | ⟨e, rs', ws', he, heq⟩ | ⟨rs', ws', heq⟩
        · exact Or.inl ⟨w, rs', ws', hw, hstep.trans heq⟩
        · exact Or.inr (Or.inl ⟨e, rs', ws', he, hstep.trans heq⟩)
        · exact Or.inr (Or.inr ⟨rs', ws', hstep.trans heq⟩)
      | cons w ws1 =>
        by_cases hw : w < 0
        · refine Or.inl ⟨w, rs, ws1, ⟨hw, hws w (List.mem_cons_self _ _)⟩, ?_⟩
          rw [drainPackets.eq_def]
          simp [hr, hw]
        · have hstep : drainPackets trailer (r :: rs) (w :: ws1)
              = drainPackets trailer rs ws1 := by
            rw [drainPackets.eq_def]
            simp [hr, hw]
          have hws' : ∀ x ∈ ws1, x ≠ AVERROR_EAGAIN :=
            fun x hx => hws x (List.mem_cons_of_mem _ hx)
          rcases ih ws1 hrs' hws' with
            ⟨w2, rs', ws', hw2, heq⟩ | ⟨e, rs', ws', he, heq⟩ | ⟨rs', ws', heq⟩
          · exact Or.inl ⟨w2, rs', ws', hw2, hstep.trans heq⟩
          · exact Or.inr (Or.inl ⟨e, rs', ws', he, hstep.trans heq⟩)
          · exact Or.inr (Or.inr ⟨rs', ws', hstep.trans heq⟩)
    · have hx := hrs r (List.mem_cons_self _ _)
      by_cases ha : r = AVERROR_EAGAIN
      · refine Or.inr (Or.inr ⟨rs, ws, ?_⟩)
        rw [drainPackets.eq_def]
        simp only
        rw [if_neg hr, if_neg hx.2, if_pos ha]
      · refine Or.inr (Or.inl ⟨r, rs, ws, ⟨by omega, ha⟩, ?_⟩)
        rw [drainPackets.eq_def]
        simp only
        rw [if_neg hr, if_neg hx.2, if_neg ha]

/-- Elimination principle for afterDrain: either the call ends right
there with the state's observable fields unchanged, or the for loop goes
around again with only the scripts consumed and ret set to
AVERROR_EAGAIN. -/
theorem afterDrain_elim (st : FAState) (trailer : Int)
    (rec : FAState → Option FAResult) (r : FAResult)
    (h : afterDrain st trailer rec = some r) :
    (r.q = st.q ∧ r.pts = st.pts ∧ r.chunks = st.chunks ∧ r.flushSent = st.flushSent)
    ∨ (∃ rs2 ws2, rs2 ⊆ st.recvs ∧ ws2 ⊆ st.writes ∧
        rec { st with recvs := rs2, writes := ws2, ret := AVERROR_EAGAIN } = some r) := by
  unfold afterDrain at h
  rcases hdp : drainPackets trailer st.recvs st.writes with ⟨out, rs2, ws2⟩
  rw [hdp] at h
  have hsub := drainPackets_shrink trailer st.recvs st.writes out rs2 ws2 hdp
  cases out with
  | toEnd w =>
    obtain rfl : mkRes { st with recvs := rs2, writes := ws2 } w false = r :=
      Option.some.inj h
    exact Or.inl ⟨rfl, rfl, rfl, rfl⟩
  | trailerBreak t =>
    obtain rfl : mkRes { st with recvs := rs2, writes := ws2 } t true = r :=
      Option.some.inj h
    exact Or.inl ⟨rfl, rfl, rfl, rfl⟩
  | errBreak e =>
    obtain rfl : mkRes { st with recvs := rs2, writes := ws2 } e false = r :=
      Option.some.inj h
    exact Or.inl ⟨rfl, rfl, rfl, rfl⟩
  | continueLoop =>
    exact Or.inr ⟨rs2, ws2, hsub.1, hsub.2, h⟩

/-- Refined elimination principle for afterDrain under the collaborator
contracts of drainPackets_cases: when the call ends right there, the
returned code is a genuine error — negative and distinct from
AVERROR_EAGAIN — and the trailer was not written. -/
theorem afterDrain_elim_classified (st : FAState) (trailer : Int)
    (rec : FAState → Option FAResult) (r : FAResult)
    (h : afterDrain st trailer rec = some r)
    (hrecv : ∀ x ∈ st.recvs, x ≤ 0 ∧ x ≠ AVERROR_EOF)
    (hws : ∀ x ∈ st.writes, x ≠ AVERROR_EAGAIN) :
    ((r.ret < 0 ∧ r.ret ≠ AVERROR_EAGAIN) ∧ r.q = st.q ∧ r.chunks = st.chunks)
    ∨ (∃ rs2 ws2, rs2 ⊆ st.recvs ∧ ws2 ⊆ st.writes ∧
        rec { st with recvs := rs2, writes := ws2, ret := AVERROR_EAGAIN } = some r) := by
  unfold afterDrain at h
  rcases drainPackets_cases trailer st.recvs st.writes hrecv hws with
    ⟨w, rs2, ws2, hw, heq⟩ | ⟨e, rs2, ws2, he, heq⟩ | ⟨rs2, ws2, heq⟩
  · rw [heq] at h
    obtain rfl : mkRes { st with recvs := rs2, writes := ws2 } w false = r :=
      Option.some.inj h
    exact Or.inl ⟨hw, rfl, rfl⟩
  · rw [heq] at h
    obtain rfl : mkRes { st with recvs := rs2, writes := ws2 } e false = r :=
      Option.some.inj h
    exact Or.inl ⟨he, rfl, rfl⟩
  · rw [heq] at h
    have hsub := drainPackets_shrink trailer st.recvs st.writes _ rs2 ws2 heq
    exact Or.inr ⟨rs2, ws2, hsub.1, hsub.2, h⟩

/-- Loop invariant behind C4: in fixed-frame-size mode (queue present,
positive frame size) and before end of stream, every data frame the loop
sends carries exactly fs samples, and whenever the loop returns without a
genuine error (its code is AVERROR_EAGAIN or non-negative) the fifo
holds strictly fewer than fs samples.  The script hypotheses are the
collaborator contracts listed at drainPackets_cases plus
avcodec_send_frame not returning AVERROR_EAGAIN. -/
theorem faLoop_drain_inv (fs : Nat) (trailer : Int) (hfs : 0 < fs) :
    ∀ fuel st r,
      (∀ x ∈ st.recvs, x ≤ 0 ∧ x ≠ AVERROR_EOF) →
      (∀ x ∈ st.writes, x ≠ AVERROR_EAGAIN) →
      (∀ x ∈ st.sends, x ≠ AVERROR_EAGAIN) →
      (∀ c ∈ st.chunks, c.samples = fs) →
      faLoop fs true false trailer fuel st = some r →
      (∀ c ∈ r.chunks, c.samples = fs) ∧
        (r.ret = AVERROR_EAGAIN ∨ 0 ≤ r.ret → r.q.length < fs) := by
  intro fuel
  induction fuel with
  | zero =>
    intro st r _ _ _ _ h
    rw [faLoop] at h
    exact Option.noConfusion h
  | succ n ih =>
    intro st r hrecv hwrites hsends hchunks h
    rw [faLoop] at h
    simp only [eq_self_iff_true, if_true, and_true] at h
    by_cases hq : min st.q.length fs = 0
    · rw [if_pos hq] at h
      obtain rfl : mkRes st AVERROR_EAGAIN false = r := Option.some.inj h
      refine ⟨hchunks, fun _ => ?_⟩
      show st.q.length < fs
      rcases min_choice st.q.length fs with hm | hm <;> omega
    · rw [if_neg hq] at h
      by_cases hlt : min st.q.length fs < fs
      · rw [if_pos hlt] at h
        obtain rfl : mkRes st st.ret false = r := Option.some.inj h
        refine ⟨hchunks, fun _ => ?_⟩
        show st.q.length < fs
        rcases min_choice st.q.length fs with hm | hm <;> omega
      · rw [if_neg hlt] at h
        have hdq : min st.q.length fs = fs := by
          rcases min_choice st.q.length fs with hm | hm <;> omega
        have hch1 : ∀ c ∈ st.chunks ++ [⟨min st.q.length fs, st.pts⟩],
            c.samples = fs := by
          intro c hc
          rcases List.mem_append.mp hc with hc | hc
          · exact hchunks c hc
          · rw [List.mem_singleton.mp hc, hdq]
        cases hsl : st.sends with
        | cons s ss =>
          rw [hsl] at h
          simp only at h
          have hse : s ≠ AVERROR_EAGAIN := hsends s (hsl ▸ List.mem_cons_self _ _)
          have hss : ∀ x ∈ ss, x ≠ AVERROR_EAGAIN :=
            fun x hx => hsends x (hsl ▸ List.mem_cons_of_mem _ hx)
          by_cases hsneg : s < 0
          · rw [if_pos hsneg] at h
            obtain rfl : _ = r := Option.some.inj h
            refine ⟨hch1, fun hret => ?_⟩
            simp only [mkRes] at hret
            rcases hret with hret | hret
            · exact absurd hret hse
            · omega
          · rw [if_neg hsneg] at h
            rcases afterDrain_elim_classified _ trailer _ r h hrecv hwrites with
              ⟨hcl, hq2, hch⟩ | ⟨rs2, ws2, hsub1, hsub2, hrec⟩
            · refine ⟨by rw [hch]; exact hch1, fun hret => ?_⟩
              rcases hret with hret | hret
              · exact absurd hret hcl.2
              · omega
            · refine ih _ r ?_ ?_ ?_ ?_ hrec
              · exact fun x hx => hrecv x (hsub1 hx)
              · exact fun x hx => hwrites x (hsub2 hx)
              · exact hss
              · exact hch1
        | nil =>
          rw [hsl] at h
          simp only at h
          rcases afterDrain_elim_classified _ trailer _ r h hrecv hwrites with
            ⟨hcl, hq2, hch⟩ | ⟨rs2, ws2, hsub1, hsub2, hrec⟩
          · refine ⟨by rw [hch]; exact hch1, fun hret => ?_⟩
            rcases hret with hret | hret
            · exact absurd hret hcl.2
            · omega
          · refine ih _ r ?_ ?_ ?_ ?_ hrec
            · exact fun x hx => hrecv x (hsub1 hx)
            · exact fun x hx => hwrites x (hsub2 hx)
            · exact fun x hx => absurd hx (List.not_mem_nil x)
            · exact hch1

/-- Chunk sample counts are non-negative integers, so chunkSum is
non-negative. -/
theorem chunkSum_nonneg (l : List Chunk) : 0 ≤ chunkSum l := by
  induction l with
  | nil => simp [chunkSum]
  | cons c cs ih =>
    simp only [chunkSum]
    have hc : (0 : Int) ≤ (c.samples : Int) := Int.natCast_nonneg _
    omega

/-- chunkSum distributes over append. -/
theorem chunkSum_append (l1 l2 : List Chunk) :
    chunkSum (l1 ++ l2) = chunkSum l1 + chunkSum l2 := by
  induction l1 with
  | nil => simp [chunkSum]
  | cons c cs ih =>
    simp only [List.cons_append, List.append_eq, chunkSum, ih]
    ring

/-- Appending a chunk stamped with the running counter preserves
consecutive timestamps. -/
theorem consecutiveFrom_append_one (l : List Chunk) :
    ∀ p : Int, ∀ d : Nat, consecutiveFrom p l = true →
      consecutiveFrom p (l ++ [⟨d, p + chunkSum l⟩]) = true := by
  induction l with
  | nil =>
    intro p d _
    simp [consecutiveFrom, chunkSum]
  | cons c cs ih =>
    intro p d h
    simp only [consecutiveFrom, Bool.and_eq_true, beq_iff_eq] at h
    simp only [List.cons_append, consecutiveFrom, Bool.and_eq_true, beq_iff_eq]
    refine ⟨h.1, ?_⟩
    have h2 := ih (p + (c.samples : Int)) d h.2
    have heq : p + chunkSum (c :: cs) = p + (c.samples : Int) + chunkSum cs := by
      simp only [chunkSum]
      ring
    rw [heq]
    exact h2

/-- Loop invariant behind C5: across the for loop, every data frame
receives the current value of the pts counter as its timestamp, the
counter then advances by exactly that frame's sample count and is never
reset, and every frame carries a positive sample count.  p0 is the
counter's value on entry with no chunks yet recorded; the conclusion
holds for arbitrary scripts, queue mode and end-of-stream flag. -/
theorem faLoop_pts_inv (fs : Nat) (hasQueue eof : Bool) (trailer : Int) (p0 : Int) :
    ∀ fuel st r,
      faLoop fs hasQueue eof trailer fuel st = some r →
      consecutiveFrom p0 st.chunks = true →
      st.pts = p0 + chunkSum st.chunks →
      (∀ c ∈ st.chunks, 0 < c.samples) →
      consecutiveFrom p0 r.chunks = true ∧ r.pts = p0 + chunkSum r.chunks ∧
        ∀ c ∈ r.chunks, 0 < c.samples := by
  intro fuel
  induction fuel with
  | zero =>
    intro st r h
    rw [faLoop] at h
    exact Option.noConfusion h
  | succ n ih =>
    intro st r h hcons hpts hpos
    rw [faLoop] at h
    by_cases hqb : hasQueue = true
    · rw [if_pos hqb] at h
      dsimp only at h
      by_cases hq0 : min st.q.length fs = 0
      · rw [if_pos hq0] at h
        by_cases heof : eof = false
        · rw [if_pos heof] at h
          obtain rfl : mkRes st AVERROR_EAGAIN false = r := Option.some.inj h
          exact ⟨hcons, hpts, hpos⟩
        · rw [if_neg heof] at h
          cases hsl : st.sends with
          | cons s ss =>
            rw [hsl] at h
            simp only at h
            by_cases hs : s < 0
            · rw [if_pos hs] at h
              obtain rfl : _ = r := Option.some.inj h
              exact ⟨hcons, hpts, hpos⟩
            · rw [if_neg hs] at h
              rcases afterDrain_elim _ trailer _ r h with
                ⟨e1, e2, e3, e4⟩ | ⟨rs2, ws2, _, _, hrec⟩
              · rw [e2, e3]
                exact ⟨hcons, hpts, hpos⟩
              · exact ih _ r hrec hcons hpts hpos
          | nil =>
            rw [hsl] at h
            simp only at h
            rcases afterDrain_elim _ trailer _ r h with
              ⟨e1, e2, e3, e4⟩ | ⟨rs2, ws2, _, _, hrec⟩
            · rw [e2, e3]
              exact ⟨hcons, hpts, hpos⟩
            · exact ih _ r hrec hcons hpts hpos
      · rw [if_neg hq0] at h
        by_cases hlt : min st.q.length fs < fs ∧ eof = false
        · rw [if_pos hlt] at h
          obtain rfl : mkRes st st.ret false = r := Option.some.inj h
          exact ⟨hcons, hpts, hpos⟩
        · rw [if_neg hlt] at h
          have hcons1 : consecutiveFrom p0
              (st.chunks ++ [⟨min st.q.length fs, st.pts⟩]) = true := by
            have hx := consecutiveFrom_append_one st.chunks p0
              (min st.q.length fs) hcons
            rw [← hpts] at hx
            exact hx
          have hpts1 : st.pts + (↑(min st.q.length fs) : Int) =
              p0 + chunkSum (st.chunks ++ [⟨min st.q.length fs, st.pts⟩]) := by
            rw [chunkSum_append]
            simp only [chunkSum]
            omega
          have hpos1 : ∀ c ∈ st.chunks ++ [⟨min st.q.length fs, st.pts⟩],
              0 < c.samples := by
            intro c hc
            rcases List.mem_append.mp hc with hc | hc
            · exact hpos c hc
            · rw [List.mem_singleton.mp hc]
              show 0 < min st.q.length fs
              omega
          cases hsl : st.sends with
          | cons s ss =>
            rw [hsl] at h
            simp only at h
            by_cases hs : s < 0
            · rw [if_pos hs] at h
              obtain rfl : _ = r := Option.some.inj h
              exact ⟨hcons1, hpts1, hpos1⟩
            · rw [if_neg hs] at h
              rcases afterDrain_elim _ trailer _ r h with
                ⟨e1, e2, e3, e4⟩ | ⟨rs2, ws2, _, _, hrec⟩
              · rw [e2, e3]
                exact ⟨hcons1, hpts1, hpos1⟩
              · exact ih _ r hrec hcons1 hpts1 hpos1
          | nil =>
            rw [hsl] at h
            simp only at h
            rcases afterDrain_elim _ trailer _ r h with
              ⟨e1, e2, e3, e4⟩ | ⟨rs2, ws2, _, _, hrec⟩
            · rw [e2, e3]
              exact ⟨hcons1, hpts1, hpos1⟩
            · exact ih _ r hrec hcons1 hpts1 hpos1
    · rw [if_neg hqb] at h
      rcases afterDrain_elim _ trailer _ r h with
        ⟨e1, e2, e3, e4⟩ | ⟨rs2, ws2, _, _, hrec⟩
      · rw [e2, e3]
        exact ⟨hcons, hpts, hpos⟩
      · exact ih _ r hrec hcons hpts hpos

/-- Chunk sizes need no collaborator contracts: in fixed-frame-size mode
before end of stream, every data frame the loop sends carries exactly fs
samples, for arbitrary scripts and however the call ends.  A chunk is
only created in the branch where min(fifo size, fs) is neither 0 nor
below fs (main.c lines 180-183), so its dequeued count is exactly fs. -/
theorem faLoop_chunks_exact (fs : Nat) (trailer : Int) :
    ∀ fuel st r,
      faLoop fs true false trailer fuel st = some r →
      (∀ c ∈ st.chunks, c.samples = fs) →
      ∀ c ∈ r.chunks, c.samples = fs := by
  intro fuel
  induction fuel with
  | zero =>
    intro st r h
    rw [faLoop] at h
    exact Option.noConfusion h
  | succ n ih =>
    intro st r h hchunks
    rw [faLoop] at h
    simp only [eq_self_iff_true, if_true, and_true] at h
    by_cases hq : min st.q.length fs = 0
    · rw [if_pos hq] at h
      obtain rfl : mkRes st AVERROR_EAGAIN false = r := Option.some.inj h
      exact hchunks
    · rw [if_neg hq] at h
      by_cases hlt : min st.q.length fs < fs
      · rw [if_pos hlt] at h
        obtain rfl : mkRes st st.ret false = r := Option.some.inj h
        exact hchunks
      · rw [if_neg hlt] at h
        have hdq : min st.q.length fs = fs := by
          rcases min_choice st.q.length fs with hm | hm <;> omega
        have hch1 : ∀ c ∈ st.chunks ++ [⟨min st.q.length fs, st.pts⟩],
            c.samples = fs := by
          intro c hc
          rcases List.mem_append.mp hc with hc | hc
          · exact hchunks c hc
          · rw [List.mem_singleton.mp hc, hdq]
        cases hsl : st.sends with
        | cons s ss =>
          rw [hsl] at h
          simp only at h
          by_cases hs : s < 0
          · rw [if_pos hs] at h
            obtain rfl : _ = r := Option.some.inj h
            exact hch1
          · rw [if_neg hs] at h
            rcases afterDrain_elim _ trailer _ r h with
              ⟨e1, e2, e3, e4⟩ | ⟨rs2, ws2, _, _, hrec⟩
            · rw [e3]
              exact hch1
            · exact ih _ r hrec hch1
        | nil =>
          rw [hsl] at h
          simp only at h
          rcases afterDrain_elim _ trailer _ r h with
            ⟨e1, e2, e3, e4⟩ | ⟨rs2, ws2, _, _, hrec⟩
          · rw [e3]
            exact hch1
          · exact ih _ r hrec hch1

/-- C4 counterexample: the claim is false as stated for every call.
With frame size 2, an empty queue, the five-sample buffer [1,2,3,4,5]
and an encoder whose avcodec_send_frame fails (code -5), the call
returns with three samples still queued, not strictly fewer than the
frame size: the error path jumps to end without draining the fifo. -/
theorem frame_assembler_drain_invariant_cex :
    format_write_audio_data 2 (some []) (some [1, 2, 3, 4, 5]) 0 [-5] [] [] 0 10
        = some ⟨-5, [3, 4, 5], 2, [⟨2, 0⟩], false, false⟩ ∧
      ¬ (([3, 4, 5] : List Int).length < 2) := by
  decide

/-- C4 amended: for every call with a queue, a positive frame size and a
non-null non-empty buffer (no final flush) — however the call ends —
every chunk handed to the encoder contains exactly frame_size samples;
and whenever the collaborator contracts hold (avcodec_receive_packet
returns non-positive codes and no AVERROR_EOF before a flush;
av_write_frame and avcodec_send_frame do not return AVERROR_EAGAIN) and
the call returns without a fatal error (its code is AVERROR_EAGAIN or
non-negative), the queue is left with strictly fewer than frame_size
samples. -/
theorem frame_assembler_drain_invariant (fs : Nat) (q0 l : List Int)
    (next_pts : Int) (sends recvs writes : List Int) (trailer : Int)
    (fuel : Nat) (r : FAResult)
    (hfs : 0 < fs) (hl : l ≠ [])
    (hrun : format_write_audio_data fs (some q0) (some l) next_pts
      sends recvs writes trailer fuel = some r) :
    (∀ c ∈ r.chunks, c.samples = fs) ∧
      ((∀ x ∈ recvs, x ≤ 0 ∧ x ≠ AVERROR_EOF) →
       (∀ x ∈ writes, x ≠ AVERROR_EAGAIN) →
       (∀ x ∈ sends, x ≠ AVERROR_EAGAIN) →
       r.ret = AVERROR_EAGAIN ∨ 0 ≤ r.ret →
       r.q.length < fs) := by
  cases l with
  | nil => exact absurd rfl hl
  | cons a as =>
    unfold format_write_audio_data at hrun
    simp only [Option.isNone_some, Option.getD_some, List.isEmpty_cons,
      Bool.false_or, Option.isSome_some] at hrun
    constructor
    · exact faLoop_chunks_exact fs trailer fuel
        ⟨q0 ++ a :: as, next_pts, sends, recvs, writes, [], false,
          ((a :: as).length : Int)⟩ r hrun
        (fun c hc => absurd hc (List.not_mem_nil c))
    · intro hrecv hwrites hsends hret
      exact (faLoop_drain_inv fs trailer hfs fuel
        ⟨q0 ++ a :: as, next_pts, sends, recvs, writes, [], false,
          ((a :: as).length : Int)⟩ r hrecv hwrites hsends
        (fun c hc => absurd hc (List.not_mem_nil c)) hrun).2 hret

/-- Witness for the amended C4: frame size 2, empty queue, buffer
[1,2,3], all collaborator calls succeeding.  The call sends one chunk of
exactly 2 samples and returns AVERROR_EAGAIN with a single sample left
queued, which is fewer than the frame size. -/
theorem frame_assembler_drain_invariant_witness :
    (∀ c ∈ (FAResult.mk AVERROR_EAGAIN [3] 2 [⟨2, 0⟩] false false).chunks,
        c.samples = 2) ∧
      (FAResult.mk AVERROR_EAGAIN [3] 2 [⟨2, 0⟩] false false).q.length < 2 :=
  ⟨(frame_assembler_drain_invariant 2 [] [1, 2, 3] 0 [] [] [] 0 10
      ⟨AVERROR_EAGAIN, [3], 2, [⟨2, 0⟩], false, false⟩
      (by decide) (by decide) (by decide)).1,
   (frame_assembler_drain_invariant 2 [] [1, 2, 3] 0 [] [] [] 0 10
      ⟨AVERROR_EAGAIN, [3], 2, [⟨2, 0⟩], false, false⟩
      (by decide) (by decide) (by decide)).2
     (by intro x hx; cases hx) (by intro x hx; cases hx)
     (by intro x hx; cases hx) (Or.inl rfl)⟩

/-- C5: for every call to format_write_audio_data — any queue mode,
buffer, scripts and fuel — the chunks sent to the encoder carry
consecutive presentation timestamps starting at the counter's incoming
value: each chunk's pts is the counter's current value, the counter then
advances by exactly that chunk's sample count (ending at the incoming
value plus the total samples sent), every chunk has a positive sample
count (so consecutive pts values strictly increase), and the counter is
never reset (it never decreases).  main initialises the counter to 0
(main.c line 413) and threads it through every call, so chaining this
result over the run gives gap-free, overlap-free timestamps from 0. -/
theorem audio_pts_consecutive (fs : Nat) (queue buf : Option (List Int))
    (next_pts : Int) (sends recvs writes : List Int) (trailer : Int)
    (fuel : Nat) (r : FAResult)
    (hrun : format_write_audio_data fs queue buf next_pts
      sends recvs writes trailer fuel = some r) :
    consecutiveFrom next_pts r.chunks = true ∧
      r.pts = next_pts + chunkSum r.chunks ∧
      (∀ c ∈ r.chunks, 0 < c.samples) ∧ next_pts ≤ r.pts := by
  unfold format_write_audio_data at hrun
  have hmain := faLoop_pts_inv fs queue.isSome
    (buf.isNone || (buf.getD []).isEmpty) trailer next_pts fuel _ r hrun
    rfl (by simp [chunkSum]) (fun c hc => absurd hc (List.not_mem_nil c))
  have hnn := chunkSum_nonneg r.chunks
  exact ⟨hmain.1, hmain.2.1, hmain.2.2, by omega⟩

/-- Witness for C5: frame size 2, empty queue, buffer [1,2,3], counter
starting at 0.  The single chunk sent has pts 0 and 2 samples, and the
counter ends at 2 = 0 + 2. -/
theorem audio_pts_consecutive_witness :
    consecutiveFrom 0 (FAResult.mk AVERROR_EAGAIN [3] 2 [⟨2, 0⟩] false false).chunks
        = true ∧
      (FAResult.mk AVERROR_EAGAIN [3] 2 [⟨2, 0⟩] false false).pts
        = 0 + chunkSum (FAResult.mk AVERROR_EAGAIN [3] 2 [⟨2, 0⟩] false false).chunks ∧
      (∀ c ∈ (FAResult.mk AVERROR_EAGAIN [3] 2 [⟨2, 0⟩] false false).chunks,
        0 < c.samples) ∧
      (0 : Int) ≤ (FAResult.mk AVERROR_EAGAIN [3] 2 [⟨2, 0⟩] false false).pts :=
  audio_pts_consecutive 2 (some []) (some [1, 2, 3]) 0 [] [] [] 0 10
    ⟨AVERROR_EAGAIN, [3], 2, [⟨2, 0⟩], false, false⟩ (by decide)

/-- C6 evidence: when main passes a NULL queue (encoder accepts variable
frame sizes), format_write_audio_data never hands the pushed samples to
the encoder.  With frame size 1152, no queue and the pushed buffer
[1,2,3]: if the encoder reports an error the call returns having sent no
data frame and no flush frame (the samples are silently dropped), and if
the encoder keeps answering AVERROR_EAGAIN — as a real encoder that was
never given data does — the for loop never terminates.  The avcodec
calls that would consume the buffer sit inside if (queue) blocks
(main.c lines 159-198), so no send ever happens; the claimed bypass
(buffer handed straight to the encoder) does not exist. -/
theorem variable_frame_bypass_never_sends :
    format_write_audio_data 1152 none (some [1, 2, 3]) 0 [] [-1] [] 0 5
        = some ⟨-1, [], 0, [], false, false⟩ ∧
      format_write_audio_data 1152 none (some [1, 2, 3]) 0 [] [] [] 0 20 = none := by
  decide
